import Mathlib

/-!
Shallow embedding of the block-wise spectral analysis programs of
`ost_radio_tools` (calculate_amplitude.c, calculate_amplitude_sum.c,
calculate_power.c, calculate_power_spectrum.c,
calculate_integrated_power_spectrum.c, calculate_spectrogram.c,
rawreader.c).

Modelling conventions:
* float32 values read from the stream are idealized as exact rationals
  (`ℚ`) for the structural and algebraic claims; a separate
  precision-aware model (`roundPrec`, `fl32`, `fl64`) is used for the
  claim about the numeric type of the accumulators.
* external library calls (FFTW transforms, libm `sqrt`/`log10f`/`cosf`)
  are parameters of the embedding: the C programs only feed them inputs
  and consume their outputs.
* each program's `main` read loop is embedded over the sequence of
  float32 values the stream yields; for the two programs that call
  `ftell` to precompute a block count, the reported byte size is a
  separate parameter, because it is obtained by a separate system call
  from the values `fread` actually delivers.
-/

namespace OstRadioTools

/-- Interleaved stream `[I0,Q0,I1,Q1,...]` regrouped into I/Q pairs,
mirroring the `block[2*i]`, `block[2*i+1]` indexing of every mode. -/
def pairUp : List ℚ → List (ℚ × ℚ)
  | a :: b :: t => (a, b) :: pairUp t
  | _ => []

/-- Per-sample raw power `I*I + Q*Q` (calculate_power.c line 176). -/
def samplePower (iq : ℚ × ℚ) : ℚ := iq.1 * iq.1 + iq.2 * iq.2

/-- The `while (1) { fread(...); if (read != n) break; ... }` loop shared by
calculate_amplitude.c, calculate_power.c,
calculate_integrated_power_spectrum.c and calculate_spectrogram.c: chunk
the stream into blocks of `n` floats, stopping at the first short read and
silently discarding the trailing partial block. -/
def blocksOf (n : ℕ) (s : List ℚ) : List (List ℚ) :=
  if _h : 0 < n ∧ n ≤ s.length then
    s.take n :: blocksOf n (s.drop n)
  else []
termination_by s.length
decreasing_by
  simp only [List.length_drop]
  omega

/-- The `num_blocks` / `total_blocks` counter of the while-loop programs. -/
def numCompleteBlocks (n : ℕ) (s : List ℚ) : ℕ := (blocksOf n s).length

/-- Output stream of calculate_amplitude.c: for each complete block of
`2*N` floats, one `sqrtf(I*I + Q*Q)` value per sample, streamed in order.
`rsq` models the libm square root. -/
def amplitudeRun (rsq : ℚ → ℚ) (N : ℕ) (s : List ℚ) : List ℚ :=
  (blocksOf (2 * N) s).flatMap fun b =>
    (pairUp b).map fun iq => rsq (samplePower iq)

/-- Sum of the per-sample powers of one block, computed exactly as the
`block_sum += power` loop of calculate_power.c (float accumulator,
idealized as exact). -/
def powerBlockSum (b : List ℚ) : ℚ :=
  ((pairUp b).map samplePower).foldl (fun acc p => acc + p) 0

/-- Raw-power output stream of calculate_power.c (`--output-type raw`):
one `I*I + Q*Q` float per sample, streamed per block. -/
def powerRawRun (N : ℕ) (s : List ℚ) : List ℚ :=
  (blocksOf (2 * N) s).flatMap fun b => (pairUp b).map samplePower

/-- Summed-power output of calculate_power.c (`--output-type sum`): one
`(block index, block power sum)` line per complete block. -/
def powerSumRun (N : ℕ) (s : List ℚ) : List (ℕ × ℚ) :=
  ((blocksOf (2 * N) s).enum).map fun kb => (kb.1, powerBlockSum kb.2)

/-- The bounded read loop of calculate_amplitude_sum.c and
calculate_power_spectrum.c: `for (current_block = 0; current_block <
number_of_blocks; current_block++)` performs `count` reads of `n` floats
each; a read that cannot deliver a full block makes the program print an
error and return 1, modelled as `Except.error ()`. -/
def takeBlocksE (n : ℕ) : ℕ → List ℚ → Except Unit (List (List ℚ))
  | 0, _ => .ok []
  | count + 1, s =>
    if n ≤ s.length then
      match takeBlocksE n count (s.drop n) with
      | .ok rest => .ok (s.take n :: rest)
      | .error e => .error e
    else .error ()

/-- The `number_of_blocks = total_file_size / sizeof(float) /
samples_per_block / 2` precomputation of calculate_amplitude_sum.c and
calculate_power_spectrum.c (C integer division). -/
def reportedBlockCount (N reportedBytes : ℕ) : ℕ :=
  reportedBytes / 4 / N / 2

/-- Per-block amplitude sum of calculate_amplitude_sum.c:
`block_amplitude_sum += sqrt(I*I + Q*Q)` over the block. -/
def ampBlockSum (rsq : ℚ → ℚ) (b : List ℚ) : ℚ :=
  ((pairUp b).map fun iq => rsq (samplePower iq)).foldl (fun acc a => acc + a) 0

/-- Run of calculate_amplitude_sum.c: the loop is bounded by the block
count precomputed from the reported file size; each complete block emits
`(block index, block_amplitude_sum / samples_per_block)`; a short read
inside the bounded loop aborts with an error. -/
def ampSumRun (rsq : ℚ → ℚ) (N reportedBytes : ℕ) (s : List ℚ) :
    Except Unit (List (ℕ × ℚ)) :=
  (takeBlocksE (2 * N) (reportedBlockCount N reportedBytes) s).map fun bs =>
    bs.enum.map fun kb => (kb.1, ampBlockSum rsq kb.2 / (N : ℚ))

/-- Run of calculate_power_spectrum.c: same bounded loop; each block is
sent through the forward complex FFT `T` (an external FFTW call, taking
the I/Q pairs of the block and a bin index to a complex value) and emits
`re*re + im*im` for every bin `0..N-1`. -/
def powerSpectrumRun (T : List (ℚ × ℚ) → ℕ → ℚ × ℚ) (N reportedBytes : ℕ)
    (s : List ℚ) : Except Unit (List ℚ) :=
  (takeBlocksE (2 * N) (reportedBlockCount N reportedBytes) s).map fun bs =>
    bs.flatMap fun b =>
      (List.range N).map fun i =>
        (T (pairUp b) i).1 * (T (pairUp b) i).1 +
          (T (pairUp b) i).2 * (T (pairUp b) i).2

/-- One accumulator update of calculate_integrated_power_spectrum.c
(process_block, lines 85-99): `power = out[i]*out[i];
power_spectrum[i] += power` for every bin, where `T` models the
complex-to-real FFTW transform (real-valued output). -/
def ipsUpdate (T : List (ℚ × ℚ) → ℕ → ℚ) (N : ℕ) (ps : List ℚ)
    (b : List ℚ) : List ℚ :=
  (List.range N).map fun i => ps.getD i 0 + T (pairUp b) i * T (pairUp b) i

/-- The accumulator of calculate_integrated_power_spectrum.c after the
read loop: starts as `calloc` zeros, updated once per complete block. -/
def ipsAccum (T : List (ℚ × ℚ) → ℕ → ℚ) (N : ℕ) (s : List ℚ) : List ℚ :=
  (blocksOf (2 * N) s).foldl (ipsUpdate T N) (List.replicate N 0)

/-- Full run of calculate_integrated_power_spectrum.c: accumulate over
all complete blocks, divide by the block count exactly once, guarded by
`if (total_blocks > 0)`, then emit one `(bin index, value)` line per bin. -/
def ipsRun (T : List (ℚ × ℚ) → ℕ → ℚ) (N : ℕ) (s : List ℚ) :
    List (ℕ × ℚ) :=
  let B := numCompleteBlocks (2 * N) s
  let acc := ipsAccum T N s
  let final := if 0 < B then acc.map fun x => x / (B : ℚ) else acc
  (List.range N).map fun i => (i, final.getD i 0)

/-- One item of the binary output stream of calculate_spectrogram.c:
either the 4-byte `samples_per_block` header or a float32 value. -/
inductive OutItem where
  | header (n : ℕ)
  | value (q : ℚ)
deriving DecidableEq, Repr

/-- Hanning window of calculate_spectrogram.c (init_fftw, lines 56-59):
`window[i] = 0.5 * (1 - cos(2*pi*i/(n-1)))`. The cosine is a libm call;
`c i m` models `cos(2*pi*i/m)`. -/
def hanningWindow (c : ℕ → ℕ → ℚ) (N : ℕ) : List ℚ :=
  (List.range N).map fun i => 1 / 2 * (1 - c i (N - 1))

/-- Windowed input of one spectrogram block: `in[i] = block[i] *
window[i]` (real-valued input to the forward FFT). -/
def windowedBlock (c : ℕ → ℕ → ℚ) (N : ℕ) (b : List ℚ) : List ℚ :=
  (List.range N).map fun i => b.getD i 0 * (hanningWindow c N).getD i 0

/-- The epsilon added before the logarithm in calculate_spectrogram.c. -/
def epsdB : ℚ := 1 / 10 ^ 10

/-- One row of calculate_spectrogram.c (process_block, lines 76-93): for
bins `0..n/2`, `power = re*re + im*im; db = 10*log10(power + 1e-10)`.
`T` models the forward FFTW transform on the windowed real input, `lg`
models libm `log10f`. -/
def spectroProcessBlock (T : List ℚ → ℕ → ℚ × ℚ) (lg : ℚ → ℚ)
    (c : ℕ → ℕ → ℚ) (N : ℕ) (b : List ℚ) : List ℚ :=
  (List.range (N / 2 + 1)).map fun i =>
    10 * lg ((T (windowedBlock c N b) i).1 * (T (windowedBlock c N b) i).1 +
      (T (windowedBlock c N b) i).2 * (T (windowedBlock c N b) i).2 + epsdB)

/-- The `num_blocks` counter of calculate_spectrogram.c: its read loop
fetches `samples_per_block` floats per iteration (line 198). -/
def spectrogramBlocksProcessed (N : ℕ) (s : List ℚ) : ℕ :=
  (blocksOf N s).length

/-- Binary output stream of calculate_spectrogram.c: the
`fwrite(&samples_per_block, sizeof(int), 1, outfile)` header (line 175)
followed by one row of `N/2 + 1` float32 values per complete block of
`N` floats. -/
def spectrogramRun (T : List ℚ → ℕ → ℚ × ℚ) (lg : ℚ → ℚ)
    (c : ℕ → ℕ → ℚ) (N : ℕ) (s : List ℚ) : List OutItem :=
  OutItem.header N ::
    ((blocksOf N s).map fun b =>
      (spectroProcessBlock T lg c N b).map OutItem.value).flatten

/-- Decidable check that a piece of the output stream carries only
float32 values (no header or other data). -/
def allValues : List OutItem → Bool
  | [] => true
  | OutItem.value _ :: t => allValues t
  | _ => false

/-- Events of a program start-up relevant to parameter validation: the
input stream being opened, the parameter being rejected, or the program
proceeding to processing. -/
inductive MEvent where
  | openInput
  | rejectParam
  | proceed
deriving DecidableEq, Repr

/-- calculate_amplitude.c main: `if (samples_per_block < 2)` is checked
(line 85) before `fopen(input_file, "rb")` (line 91);
`samples_per_block` is a `size_t`. -/
def amplitudeEvents (n : ℕ) : List MEvent :=
  if n < 2 then [MEvent.rejectParam] else [MEvent.openInput, MEvent.proceed]

/-- calculate_spectrogram.c main: same `< 2` check (line 134) before
`fopen` (line 140). -/
def spectrogramEvents (n : ℕ) : List MEvent :=
  if n < 2 then [MEvent.rejectParam] else [MEvent.openInput, MEvent.proceed]

/-- calculate_power.c main: the input file is opened (line 88) before the
parameter is checked, and the check rejects only
`samples_per_block == 0` (line 116). -/
def powerEvents (n : ℕ) : List MEvent :=
  MEvent.openInput :: (if n = 0 then [MEvent.rejectParam] else [MEvent.proceed])

/-- calculate_integrated_power_spectrum.c main: `if (samples_per_block
<= 0)` (line 133, an `int`) is checked before `fopen` (line 156). -/
def ipsEvents (n : ℤ) : List MEvent :=
  if n ≤ 0 then [MEvent.rejectParam] else [MEvent.openInput, MEvent.proceed]

/-- calculate_amplitude_sum.c main: no validation of `samples_per_block`
at all; the input is opened (line 120) and processing proceeds. -/
def ampSumEvents (_ : ℤ) : List MEvent :=
  [MEvent.openInput, MEvent.proceed]

/-- calculate_power_spectrum.c main: no validation of
`samples_per_block`; the input is opened (line 135) and processing
proceeds. -/
def powerSpectrumEvents (_ : ℤ) : List MEvent :=
  [MEvent.openInput, MEvent.proceed]

/-- rawreader.c main: no validation of `samples` at all. -/
def rawreaderEvents (_ : ℤ) : List MEvent :=
  [MEvent.openInput, MEvent.proceed]

/-- Whether a start-up trace rejects the parameter before any input
stream I/O is performed. -/
def rejectedBeforeOpen : List MEvent → Bool
  | [] => false
  | MEvent.openInput :: _ => false
  | MEvent.rejectParam :: _ => true
  | MEvent.proceed :: t => rejectedBeforeOpen t

/-- Round a rational to an integer, ties to even (IEEE-754 default). -/
def roundTiesEven (q : ℚ) : ℤ :=
  let f := ⌊q⌋
  let r := q - f
  if r < 1 / 2 then f
  else if 1 / 2 < r then f + 1
  else if f % 2 = 0 then f else f + 1

/-- Fuel-bounded base-2 logarithm on naturals (the fuel argument only
makes the recursion structural; `fuel = n` always suffices). -/
def log2Fuel : ℕ → ℕ → ℕ
  | 0, _ => 0
  | fuel + 1, n => if n < 2 then 0 else log2Fuel fuel (n / 2) + 1

/-- Base-2 logarithm on naturals, rounded down. -/
def natLog2 (n : ℕ) : ℕ := log2Fuel n n

/-- Binary exponent of a positive rational: the unique `e` with
`2^e ≤ x < 2^(e+1)`, computed from the numerator and denominator. -/
def ratExp2 (x : ℚ) : ℤ :=
  let e0 : ℤ := (natLog2 x.num.natAbs : ℤ) - (natLog2 x.den : ℤ)
  if x < (2 : ℚ) ^ e0 then e0 - 1 else e0

/-- Round a rational to a binary floating-point format with a `p`-bit
significand (exponent range unbounded: the values in play are far from
overflow and underflow). -/
def roundPrec (p : ℕ) (x : ℚ) : ℚ :=
  if x = 0 then 0
  else
    let a : ℚ := if x < 0 then -x else x
    let e : ℤ := ratExp2 a
    let scale : ℚ := (2 : ℚ) ^ (e - p + 1)
    (if x < 0 then -1 else 1) * (roundTiesEven (a / scale) : ℚ) * scale

/-- Rounding of IEEE-754 binary32 (C `float`). -/
def fl32 (x : ℚ) : ℚ := roundPrec 24 x

/-- Rounding of IEEE-754 binary64 (C `double`). -/
def fl64 (x : ℚ) : ℚ := roundPrec 53 x

/-- Precision-aware model of one accumulator update of
calculate_integrated_power_spectrum.c (lines 95-98): `float power =
out[i]*out[i]; power_spectrum[i] += power` with `power_spectrum` a
`float *` — product and accumulation both round to single precision. -/
def ipsAccumStep (ps o : ℚ) : ℚ := fl32 (ps + fl32 (o * o))

/-- Accumulator update as the spec describes it: the per-block power is
still computed in single precision, but accumulation into the Power
Spectrum Accumulator is performed in double precision. Second definition
for the refinement comparison, following the spec's words. -/
def ipsAccumStepSpecDouble (ps o : ℚ) : ℚ := fl64 (ps + fl32 (o * o))

/-- Precision-aware model of one accumulator update of
calculate_amplitude_sum.c (line 165): `block_amplitude_sum += sqrt(...)`
with `double block_amplitude_sum`; `a` is the double-precision square
root delivered by libm. -/
def ampSumAccumStep (s a : ℚ) : ℚ := fl64 (s + a)

/-! Helper lemmas about the embedding. -/

theorem blocksOf_eq_nil {n : ℕ} {s : List ℚ} (h : s.length < n) :
    blocksOf n s = [] := by
  rw [blocksOf, dif_neg]
  rintro ⟨-, h2⟩
  omega

theorem blocksOf_length (n : ℕ) (hn : 0 < n) (s : List ℚ) :
    (blocksOf n s).length = s.length / n := by
  generalize hm : s.length = m
  induction m using Nat.strong_induction_on generalizing s with
  | _ m ih =>
    subst hm
    by_cases hc : n ≤ s.length
    · rw [blocksOf, dif_pos ⟨hn, hc⟩]
      simp only [List.length_cons]
      rw [ih (s.drop n).length (by simp; omega) (s.drop n) rfl]
      rw [List.length_drop, Nat.div_eq_sub_div hn hc]
    · rw [blocksOf_eq_nil (by omega)]
      simp only [List.length_nil]
      exact (Nat.div_eq_of_lt (by omega)).symm

theorem blocksOf_block_length (n : ℕ) (s : List ℚ) :
    ∀ b ∈ blocksOf n s, b.length = n := by
  generalize hm : s.length = m
  induction m using Nat.strong_induction_on generalizing s with
  | _ m ih =>
    subst hm
    by_cases hc : 0 < n ∧ n ≤ s.length
    · rw [blocksOf, dif_pos hc]
      intro b hb
      rcases List.mem_cons.mp hb with h | h
      · subst h
        simp only [List.length_take]
        omega
      · exact ih (s.drop n).length (by simp; omega) (s.drop n) rfl b h
    · rw [blocksOf, dif_neg hc]
      intro b hb
      simp at hb

theorem blocksOf_cons {n : ℕ} {s : List ℚ} (hn : 0 < n) (hc : n ≤ s.length) :
    blocksOf n s = s.take n :: blocksOf n (s.drop n) := by
  rw [blocksOf, dif_pos ⟨hn, hc⟩]

theorem blocksOf_exact {n : ℕ} {s : List ℚ} (hn : 0 < n) (h : s.length = n) :
    blocksOf n s = [s] := by
  rw [blocksOf_cons hn (by omega), List.take_of_length_le (by omega),
    List.drop_of_length_le (by omega), blocksOf_eq_nil (by simpa using hn)]

theorem takeBlocksE_ok (n : ℕ) (hn : 0 < n) :
    ∀ (count : ℕ) (s : List ℚ), count ≤ s.length / n →
      ∃ out, takeBlocksE n count s = .ok out ∧ out.length = count := by
  intro count
  induction count with
  | zero => intro s _; exact ⟨[], rfl, rfl⟩
  | succ c ih =>
    intro s hcount
    have hc : n ≤ s.length := by
      by_contra hlt
      rw [Nat.div_eq_of_lt (by omega)] at hcount
      omega
    have hrec : c ≤ (s.drop n).length / n := by
      rw [List.length_drop]
      rw [Nat.div_eq_sub_div hn hc] at hcount
      omega
    obtain ⟨out, hout, hlen⟩ := ih (s.drop n) hrec
    refine ⟨s.take n :: out, ?_, by simp [hlen]⟩
    rw [takeBlocksE, if_pos hc, hout]

theorem takeBlocksE_error (n : ℕ) (hn : 0 < n) :
    ∀ (count : ℕ) (s : List ℚ), s.length / n < count →
      takeBlocksE n count s = .error () := by
  intro count
  induction count with
  | zero => intro s h; exact absurd h (Nat.not_lt_zero _)
  | succ c ih =>
    intro s hcount
    by_cases hc : n ≤ s.length
    · have hrec : (s.drop n).length / n < c := by
        rw [List.length_drop]
        rw [Nat.div_eq_sub_div hn hc] at hcount
        omega
      rw [takeBlocksE, if_pos hc, ih (s.drop n) hrec]
    · rw [takeBlocksE, if_neg hc]

theorem getD_range_map {α : Type} (N i : ℕ) (f : ℕ → α) (d : α) (h : i < N) :
    ((List.range N).map f).getD i d = f i := by
  rw [List.getD_eq_getElem _ _ (by simpa using h)]
  simp

theorem getD_map_of_lt {α β : Type} (f : α → β) (l : List α) (i : ℕ)
    (h : i < l.length) (d : α) (e : β) :
    (l.map f).getD i e = f (l.getD i d) := by
  rw [List.getD_eq_getElem _ _ (by simpa using h), List.getD_eq_getElem _ _ h]
  simp

theorem foldl_add_eq (a : ℚ) (l : List ℚ) :
    l.foldl (fun x y => x + y) a = a + l.sum := by
  induction l generalizing a with
  | nil => simp
  | cons x t ih => simp [ih, add_assoc]

theorem pairUp_length : ∀ l : List ℚ, (pairUp l).length = l.length / 2
  | [] => by simp [pairUp]
  | [_] => by simp [pairUp]
  | _ :: _ :: t => by
    simp only [pairUp, List.length_cons, pairUp_length t]
    omega

theorem flatten_extract {α : Type} (L : ℕ) :
    ∀ (rows : List (List α)) (k : ℕ), (∀ r ∈ rows, r.length = L) →
      k < rows.length →
      ((rows.flatten.drop (k * L)).take L) = rows.getD k [] := by
  intro rows
  induction rows with
  | nil => intro k _ hk; simp at hk
  | cons r t ih =>
    intro k h hk
    have hr : r.length = L := h r (List.mem_cons_self r t)
    cases k with
    | zero =>
      simp only [Nat.zero_mul, List.drop_zero, List.flatten_cons, List.getD]
      rw [← hr, List.take_left]
      rfl
    | succ k =>
      have hdrop : (r ++ t.flatten).drop ((k + 1) * L) = t.flatten.drop (k * L) := by
        have : (k + 1) * L = r.length + k * L := by rw [hr]; ring
        rw [this, ← List.drop_drop, List.drop_left]
      simp only [List.flatten_cons, hdrop]
      exact ih k (fun x hx => h x (List.mem_cons_of_mem r hx)) (by simpa using hk)

theorem flatten_length_const {α : Type} (L : ℕ) :
    ∀ rows : List (List α), (∀ r ∈ rows, r.length = L) →
      rows.flatten.length = rows.length * L := by
  intro rows
  induction rows with
  | nil => intro _; simp
  | cons r t ih =>
    intro h
    simp only [List.flatten_cons, List.length_append, List.length_cons,
      h r (List.mem_cons_self r t), ih fun x hx => h x (List.mem_cons_of_mem r hx)]
    ring

theorem ipsUpdate_foldl_getD (T : List (ℚ × ℚ) → ℕ → ℚ) (N i : ℕ) (hi : i < N) :
    ∀ (bl : List (List ℚ)) (ps : List ℚ),
      (bl.foldl (ipsUpdate T N) ps).getD i 0
        = ps.getD i 0 + (bl.map fun b => T (pairUp b) i * T (pairUp b) i).sum := by
  intro bl
  induction bl with
  | nil => intro ps; simp
  | cons b t ih =>
    intro ps
    simp only [List.foldl_cons, List.map_cons, List.sum_cons]
    rw [ih (ipsUpdate T N ps b)]
    unfold ipsUpdate
    rw [getD_range_map _ _ _ _ hi]
    ring

theorem foldl_ipsUpdate_length (T : List (ℚ × ℚ) → ℕ → ℚ) (N : ℕ) :
    ∀ (bl : List (List ℚ)) (ps : List ℚ), ps.length = N →
      (bl.foldl (ipsUpdate T N) ps).length = N := by
  intro bl
  induction bl with
  | nil => intro ps h; simpa using h
  | cons b t ih =>
    intro ps _
    rw [List.foldl_cons]
    exact ih _ (by simp [ipsUpdate])

theorem ipsAccum_length (T : List (ℚ × ℚ) → ℕ → ℚ) (N : ℕ) (s : List ℚ) :
    (ipsAccum T N s).length = N := by
  unfold ipsAccum
  exact foldl_ipsUpdate_length T N _ _ (by simp)

theorem allValues_append_values (l : List ℚ) (m : List OutItem) :
    allValues (l.map OutItem.value ++ m) = allValues m := by
  induction l with
  | nil => rfl
  | cons x t ih => simpa [allValues] using ih

theorem allValues_flatten_rows (rows : List (List ℚ)) :
    allValues ((rows.map fun r => r.map OutItem.value).flatten) = true := by
  induction rows with
  | nil => rfl
  | cons r t ih =>
    simp only [List.map_cons, List.flatten_cons]
    rw [allValues_append_values]
    exact ih

/-! Claim theorems. -/

/-- C1, counterexample: the claim says a short read is treated as normal
end-of-stream and never as an error in every mode. In the amplitude-sum
mode (calculate_amplitude_sum.c) the read loop is bounded by the block
count precomputed from the reported file size, and a short read inside
that bound makes the program print an error and return 1: with a
reported size of 16 bytes (one block at `N = 2`) and a stream that
yields no floats, the run errors instead of reporting end-of-stream. -/
theorem ampSum_short_read_is_error :
    ampSumRun (fun q => q) 2 16 [] = Except.error () := rfl

/-- C1, amended: in the amplitude, power, integrated-power-spectrum and
spectrogram modes the main loop terminates solely on a short read,
treated as normal end-of-stream (every complete block of the stream is
processed, the trailing partial block is dropped). The amplitude-sum and
power-spectrum modes instead bound their loop by the block count
precomputed from the reported file size and treat a short read inside
that bound as an error. -/
theorem loop_termination_per_mode (rsq : ℚ → ℚ)
    (T : List (ℚ × ℚ) → ℕ → ℚ × ℚ) (N rb : ℕ) (s : List ℚ) (hN : 0 < N) :
    numCompleteBlocks (2 * N) s = s.length / (2 * N)
    ∧ numCompleteBlocks N s = s.length / N
    ∧ (s.length / (2 * N) < reportedBlockCount N rb →
        ampSumRun rsq N rb s = Except.error ()
        ∧ powerSpectrumRun T N rb s = Except.error ())
    ∧ (reportedBlockCount N rb ≤ s.length / (2 * N) →
        (∃ out, ampSumRun rsq N rb s = Except.ok out
          ∧ out.length = reportedBlockCount N rb)
        ∧ ∃ out, powerSpectrumRun T N rb s = Except.ok out) := by
  refine ⟨blocksOf_length _ (by omega) s, blocksOf_length _ hN s, ?_, ?_⟩
  · intro hlt
    have herr := takeBlocksE_error (2 * N) (by omega) (reportedBlockCount N rb) s hlt
    constructor
    · unfold ampSumRun
      rw [herr]
      rfl
    · unfold powerSpectrumRun
      rw [herr]
      rfl
  · intro hle
    obtain ⟨out, hout, hlen⟩ :=
      takeBlocksE_ok (2 * N) (by omega) (reportedBlockCount N rb) s hle
    constructor
    · refine ⟨out.enum.map fun kb => (kb.1, ampBlockSum rsq kb.2 / (N : ℚ)), ?_, ?_⟩
      · unfold ampSumRun
        rw [hout]
        rfl
      · simp [hlen]
    · refine ⟨out.flatMap fun b => (List.range N).map fun i =>
        (T (pairUp b) i).1 * (T (pairUp b) i).1 +
          (T (pairUp b) i).2 * (T (pairUp b) i).2, ?_⟩
      unfold powerSpectrumRun
      rw [hout]
      rfl

/-- C1, witness: at `N = 2` with a reported size of 16 bytes and a
stream of 5 floats, the amplitude-sum run succeeds with one block. -/
theorem loop_termination_per_mode_witness :
    (0 : ℕ) < 2 ∧ ∃ out, ampSumRun (fun q => q) 2 16 [1, 2, 3, 4, 5] = Except.ok out
      ∧ out.length = reportedBlockCount 2 16 := by
  refine ⟨by decide, ?_⟩
  have h := (loop_termination_per_mode (fun q => q) (fun _ _ => (0, 0)) 2 16
    [1, 2, 3, 4, 5] (by decide)).2.2.2 (by decide)
  exact h.1

/-- C2, counterexample: the claim says every mode consumes exactly `2*N`
floats per iteration, so a stream of `k*2*N + r` floats (0 < r < 2N)
yields exactly `k` blocks. The spectrogram mode reads only
`samples_per_block` floats per iteration (calculate_spectrogram.c line
198): at `N = 2` a stream of 5 floats (`k = 1`, `r = 1`) is processed as
2 blocks, not 1. -/
theorem spectrogram_reads_N_not_2N :
    spectrogramBlocksProcessed 2 [1, 2, 3, 4, 5] ≠ 1 := by
  unfold spectrogramBlocksProcessed
  rw [blocksOf_length 2 (by decide)]
  decide

/-- C2, amended: in the amplitude, power, integrated-power-spectrum,
amplitude-sum and power-spectrum modes each iteration consumes exactly
`2*N` floats and a stream of `k*2*N + r` floats (r < 2N) yields exactly
`k` processed blocks with the trailing `r` floats discarded without
error (for the two file-size-bounded modes, provided the reported file
size matches the stream). The spectrogram mode consumes `N` floats per
iteration and yields `2*k + r/N` blocks from the same stream. -/
theorem block_consumption_per_mode (rsq : ℚ → ℚ)
    (T : List (ℚ × ℚ) → ℕ → ℚ × ℚ) (N k r : ℕ) (s : List ℚ) (hN : 0 < N)
    (hlen : s.length = k * (2 * N) + r) (hr : r < 2 * N) :
    numCompleteBlocks (2 * N) s = k
    ∧ (∀ b ∈ blocksOf (2 * N) s, b.length = 2 * N)
    ∧ (∃ out, ampSumRun rsq N (4 * s.length) s = Except.ok out ∧ out.length = k)
    ∧ (∃ out, powerSpectrumRun T N (4 * s.length) s = Except.ok out)
    ∧ spectrogramBlocksProcessed N s = 2 * k + r / N := by
  have hdiv : s.length / (2 * N) = k := by
    rw [hlen, Nat.mul_comm k (2 * N), Nat.mul_add_div (by omega),
      Nat.div_eq_of_lt hr, Nat.add_zero]
  have hrbc : reportedBlockCount N (4 * s.length) = k := by
    unfold reportedBlockCount
    rw [Nat.mul_div_cancel_left _ (by decide : 0 < 4), Nat.div_div_eq_div_mul,
      Nat.mul_comm N 2]
    exact hdiv
  obtain ⟨out, hout, hlenout⟩ := takeBlocksE_ok (2 * N) (by omega)
    (reportedBlockCount N (4 * s.length)) s (by rw [hrbc, hdiv])
  refine ⟨?_, blocksOf_block_length _ s, ?_, ?_, ?_⟩
  · unfold numCompleteBlocks
    rw [blocksOf_length _ (by omega)]
    exact hdiv
  · refine ⟨out.enum.map fun kb => (kb.1, ampBlockSum rsq kb.2 / (N : ℚ)), ?_, ?_⟩
    · unfold ampSumRun
      rw [hout]
      rfl
    · simp [hlenout, hrbc]
  · refine ⟨out.flatMap fun b => (List.range N).map fun i =>
      (T (pairUp b) i).1 * (T (pairUp b) i).1 +
        (T (pairUp b) i).2 * (T (pairUp b) i).2, ?_⟩
    unfold powerSpectrumRun
    rw [hout]
    rfl
  · unfold spectrogramBlocksProcessed
    rw [blocksOf_length _ hN, hlen, show k * (2 * N) = N * (2 * k) by ring,
      Nat.mul_add_div hN]

/-- C2, witness: at `N = 2`, `k = 1`, `r = 1`, a 5-float stream yields
one block in the 2N-float modes and two blocks in the spectrogram. -/
theorem block_consumption_per_mode_witness :
    numCompleteBlocks 4 [1, 2, 3, 4, 5] = 1
    ∧ spectrogramBlocksProcessed 2 [1, 2, 3, 4, 5] = 2 := by
  have h := block_consumption_per_mode (fun q => q) (fun _ _ => (0, 0)) 2 1 1
    [1, 2, 3, 4, 5] (by decide) (by decide) (by decide)
  refine ⟨h.1, ?_⟩
  rw [h.2.2.2.2]

/-- C3, confirmed: in the integrated power spectrum mode, after `B ≥ 1`
complete blocks, the value emitted for bin `i` is the arithmetic mean
over the blocks of the squared real-valued transform output at bin `i`:
the accumulator sums `out[i] * out[i]` across all blocks and is divided
by the block count exactly once before emission. -/
theorem ips_emits_mean (T : List (ℚ × ℚ) → ℕ → ℚ) (N : ℕ) (s : List ℚ)
    (i : ℕ) (hi : i < N) (hB : 0 < numCompleteBlocks (2 * N) s) :
    (ipsRun T N s).getD i (0, 0)
      = (i, ((blocksOf (2 * N) s).map fun b => T (pairUp b) i * T (pairUp b) i).sum
            / (numCompleteBlocks (2 * N) s : ℚ)) := by
  simp only [ipsRun]
  rw [getD_range_map _ _ _ _ hi, if_pos hB,
    getD_map_of_lt _ _ i (by rw [ipsAccum_length]; exact hi) 0 0]
  have hacc : (ipsAccum T N s).getD i 0
      = ((blocksOf (2 * N) s).map fun b => T (pairUp b) i * T (pairUp b) i).sum := by
    unfold ipsAccum
    rw [ipsUpdate_foldl_getD T N i hi]
    rw [List.getD_eq_getElem _ _ (by simpa using hi)]
    simp
  rw [hacc]

/-- C3, witness: one block `[1, 2]` at `N = 1` with a transform that
returns 2 at every bin emits `4 = 2² / 1` for bin 0. -/
theorem ips_emits_mean_witness :
    (ipsRun (fun _ _ => 2) 1 [1, 2]).getD 0 (0, 0) = (0, 4) := by
  have hb : blocksOf 2 [1, 2] = [[1, 2]] := blocksOf_exact (by decide) (by decide)
  have hB : 0 < numCompleteBlocks 2 [1, 2] := by
    unfold numCompleteBlocks
    rw [hb]
    decide
  rw [ips_emits_mean (fun _ _ => 2) 1 [1, 2] 0 (by decide) hB]
  unfold numCompleteBlocks
  rw [hb]
  norm_num

/-- C10, confirmed: if the stream yields fewer than `2*N` floats, the
integrated power spectrum run processes zero blocks, the division of
the accumulator by the block count is skipped by the `total_blocks > 0`
guard, and the run still emits exactly `N` lines, each carrying 0. -/
theorem ips_zero_blocks_emits_zeros (T : List (ℚ × ℚ) → ℕ → ℚ) (N : ℕ)
    (s : List ℚ) (h : s.length < 2 * N) :
    ipsRun T N s = (List.range N).map fun i => (i, (0 : ℚ)) := by
  have hb : blocksOf (2 * N) s = [] := blocksOf_eq_nil h
  simp only [ipsRun, numCompleteBlocks, ipsAccum, hb, List.length_nil,
    List.foldl_nil]
  rw [if_neg (by omega)]
  apply List.map_congr_left
  intro i hi
  have hiN : i < N := List.mem_range.mp hi
  rw [List.getD_eq_getElem _ _ (by simpa using hiN)]
  simp

/-- C10, witness: at `N = 2` an empty stream emits the two lines
`(0, 0)` and `(1, 0)`. -/
theorem ips_zero_blocks_emits_zeros_witness :
    ipsRun (fun _ _ => 0) 2 [] = [(0, 0), (1, 0)] := by
  rw [ips_zero_blocks_emits_zeros (fun _ _ => 0) 2 [] (by decide)]
  rfl

/-- C4, confirmed: in the binary output of the spectrogram mode, the
row of block `k` (the `N/2 + 1` items following the header at offset
`1 + k*(N/2+1)`) consists of exactly `N/2 + 1` values, and the value for
bin `i` is `10 * log10(p_i + 1e-10)` where `p_i = re² + im²` is the
squared magnitude of bin `i` of the forward transform of the windowed
block; the epsilon is added unconditionally inside the formula, with no
branch on zero power. -/
theorem spectrogram_row_values (T : List ℚ → ℕ → ℚ × ℚ) (lg : ℚ → ℚ)
    (c : ℕ → ℕ → ℚ) (N : ℕ) (s : List ℚ) (k : ℕ)
    (hk : k < (blocksOf N s).length) :
    ((spectrogramRun T lg c N s).drop (1 + k * (N / 2 + 1))).take (N / 2 + 1)
      = (List.range (N / 2 + 1)).map fun i =>
          OutItem.value (10 * lg
            ((T (windowedBlock c N ((blocksOf N s).getD k [])) i).1 *
              (T (windowedBlock c N ((blocksOf N s).getD k [])) i).1 +
             (T (windowedBlock c N ((blocksOf N s).getD k [])) i).2 *
              (T (windowedBlock c N ((blocksOf N s).getD k [])) i).2 + epsdB)) := by
  unfold spectrogramRun
  rw [Nat.add_comm 1 (k * (N / 2 + 1)), List.drop_succ_cons]
  rw [flatten_extract (N / 2 + 1) _ k ?_ (by simpa using hk)]
  · rw [getD_map_of_lt (fun b => (spectroProcessBlock T lg c N b).map OutItem.value)
      (blocksOf N s) k hk []]
    unfold spectroProcessBlock
    rw [List.map_map]
    rfl
  · intro row hrow
    obtain ⟨b, hb, rfl⟩ := List.mem_map.mp hrow
    simp [spectroProcessBlock]

/-- C4, witness: one block `[1, 2]` at `N = 2`, with a transform that
returns `(1, 1)` at every bin and the identity in place of `log10`,
yields the row `[10*(2 + 1e-10), 10*(2 + 1e-10)]`. -/
theorem spectrogram_row_values_witness :
    ((spectrogramRun (fun _ _ => (1, 1)) (fun q => q) (fun _ _ => 0) 2 [1, 2]).drop
        1).take 2
      = [OutItem.value (20 + 1 / 10 ^ 9), OutItem.value (20 + 1 / 10 ^ 9)] := by
  have hb : blocksOf 2 [1, 2] = [[1, 2]] := blocksOf_exact (by decide) (by decide)
  have h := spectrogram_row_values (fun _ _ => (1, 1)) (fun q => q) (fun _ _ => 0)
    2 [1, 2] 0 (by rw [hb]; decide)
  rw [hb] at h
  rw [show (1 + 0 * (2 / 2 + 1) : ℕ) = 1 from rfl,
    show (2 / 2 + 1 : ℕ) = 2 from rfl] at h
  rw [h]
  norm_num [epsdB, List.range_succ]

/-- C7, confirmed: the precomputed spectrogram window satisfies
`w[i] = 0.5 * (1 - cos(2*pi*i/(N-1)))` for every `i < N`, and in
particular `window[0] = window[N-1] = 0` exactly; here `c i m` models
the cosine of `2*pi*i/m`, and the two cosine hypotheses are the
mathematical facts `cos 0 = 1` and `cos 2*pi = 1`. -/
theorem hanning_window_endpoints (c : ℕ → ℕ → ℚ) (N : ℕ) (h2 : 2 ≤ N)
    (hc0 : c 0 (N - 1) = 1) (hc1 : c (N - 1) (N - 1) = 1) :
    (hanningWindow c N).getD 0 0 = 0
    ∧ (hanningWindow c N).getD (N - 1) 0 = 0
    ∧ ∀ i, i < N → (hanningWindow c N).getD i 0 = 1 / 2 * (1 - c i (N - 1)) := by
  unfold hanningWindow
  refine ⟨?_, ?_, ?_⟩
  · rw [getD_range_map _ _ _ _ (by omega), hc0]
    norm_num
  · rw [getD_range_map _ _ _ _ (by omega), hc1]
    norm_num
  · intro i hi
    rw [getD_range_map _ _ _ _ hi]

/-- C7, witness: at `N = 2` with the constant-one cosine model both
window entries are exactly 0. -/
theorem hanning_window_endpoints_witness :
    (hanningWindow (fun _ _ => 1) 2).getD 0 0 = 0
    ∧ (hanningWindow (fun _ _ => 1) 2).getD 1 0 = 0 := by
  have h := hanning_window_endpoints (fun _ _ => 1) 2 (by decide) rfl rfl
  exact ⟨h.1, h.2.1⟩

/-- C9, counterexample: the claim says the spectrogram binary output
consists exclusively of rows of float32 values. The program first writes
a 4-byte header holding `samples_per_block` (calculate_spectrogram.c
line 175): on an empty stream the output is the lone header item rather
than the empty list of rows, so the stream contains data that is not a
row value. -/
theorem spectrogram_output_has_header :
    (spectrogramRun (fun _ _ => (0, 0)) (fun _ => 0) (fun _ _ => 0) 2 []).head?
      = some (OutItem.header 2)
    ∧ allValues (spectrogramRun (fun _ _ => (0, 0)) (fun _ => 0) (fun _ _ => 0) 2 [])
      = false := by
  constructor
  · rfl
  · unfold spectrogramRun
    rw [blocksOf_eq_nil (by decide)]
    rfl

/-- C9, amended: the spectrogram binary output is the 4-byte
`samples_per_block` header followed exclusively by consecutive rows of
`N/2 + 1` float32 values, one row per processed block. -/
theorem spectrogram_output_shape (T : List ℚ → ℕ → ℚ × ℚ) (lg : ℚ → ℚ)
    (c : ℕ → ℕ → ℚ) (N : ℕ) (s : List ℚ) :
    (spectrogramRun T lg c N s).head? = some (OutItem.header N)
    ∧ allValues (spectrogramRun T lg c N s).tail = true
    ∧ (spectrogramRun T lg c N s).tail.length
        = spectrogramBlocksProcessed N s * (N / 2 + 1) := by
  refine ⟨rfl, ?_, ?_⟩
  · show allValues
      ((blocksOf N s).map fun b =>
        (spectroProcessBlock T lg c N b).map OutItem.value).flatten = true
    rw [show (fun b => (spectroProcessBlock T lg c N b).map OutItem.value)
        = ((fun r : List ℚ => r.map OutItem.value) ∘ spectroProcessBlock T lg c N)
      from rfl, ← List.map_map]
    exact allValues_flatten_rows _
  · show ((blocksOf N s).map fun b =>
        (spectroProcessBlock T lg c N b).map OutItem.value).flatten.length
      = spectrogramBlocksProcessed N s * (N / 2 + 1)
    rw [flatten_length_const (N / 2 + 1) _ ?_]
    · rw [List.length_map]
      rfl
    · intro r hr
      obtain ⟨b, hb, rfl⟩ := List.mem_map.mp hr
      simp [spectroProcessBlock]

/-- C8, confirmed: the summed-power output line for block `k` carries
exactly the sum of the `N` raw-power values the raw output writes for
the same block (reconciliation of the `sum` and `raw` output types of
calculate_power.c). -/
theorem power_sum_reconciles_raw (N : ℕ) (s : List ℚ) (k : ℕ)
    (hk : k < (blocksOf (2 * N) s).length) :
    (powerSumRun N s).getD k (0, 0)
      = (k, (((powerRawRun N s).drop (k * N)).take N).sum) := by
  have hrows : ∀ r ∈ (blocksOf (2 * N) s).map fun b => (pairUp b).map samplePower,
      r.length = N := by
    intro r hr
    obtain ⟨b, hb, rfl⟩ := List.mem_map.mp hr
    rw [List.length_map, pairUp_length, blocksOf_block_length _ _ b hb]
    omega
  have hraw : powerRawRun N s
      = ((blocksOf (2 * N) s).map fun b => (pairUp b).map samplePower).flatten := rfl
  rw [hraw, flatten_extract N _ k hrows (by simpa using hk),
    getD_map_of_lt (fun b => (pairUp b).map samplePower) _ k hk []]
  unfold powerSumRun
  rw [getD_map_of_lt (fun kb : ℕ × List ℚ => (kb.1, powerBlockSum kb.2)) _ k
    (by simpa using hk) (0, [])]
  have henum : ((blocksOf (2 * N) s).enum).getD k (0, [])
      = (k, (blocksOf (2 * N) s).getD k []) := by
    rw [List.getD_eq_getElem _ _ (by simpa using hk),
      List.getD_eq_getElem _ _ hk, List.getElem_enum]
  rw [henum]
  unfold powerBlockSum
  rw [foldl_add_eq, zero_add]

/-- C8, witness: the single block `(3,4), (0,0)` at `N = 2` gives the
summed-power line `(0, 25)`, the sum of the raw values `25` and `0`
(the example of the spec). -/
theorem power_sum_reconciles_raw_witness :
    (powerSumRun 2 [3, 4, 0, 0]).getD 0 (0, 0) = (0, 25) := by
  have hb : blocksOf 4 [3, 4, 0, 0] = [[3, 4, 0, 0]] :=
    blocksOf_exact (by decide) (by decide)
  rw [power_sum_reconciles_raw 2 [3, 4, 0, 0] 0 (by rw [hb]; decide)]
  unfold powerRawRun
  rw [hb]
  norm_num [pairUp, samplePower]

theorem ratExp2_one_plus : ratExp2 (1 + 1 / 2 ^ 30 : ℚ) = 0 := by
  have hnum : ((1 : ℚ) + 1 / 2 ^ 30).num.natAbs = 1073741825 := by norm_num
  have hden : ((1 : ℚ) + 1 / 2 ^ 30).den = 1073741824 := by norm_num
  simp only [ratExp2, hnum, hden]
  norm_num [show natLog2 1073741825 = 30 from rfl,
    show natLog2 1073741824 = 30 from rfl]

theorem ratExp2_small : ratExp2 (1 / 2 ^ 30 : ℚ) = -30 := by
  have hnum : ((1 : ℚ) / 2 ^ 30).num.natAbs = 1 := by norm_num
  have hden : ((1 : ℚ) / 2 ^ 30).den = 1073741824 := by norm_num
  simp only [ratExp2, hnum, hden]
  norm_num [show natLog2 1 = 0 from rfl, show natLog2 1073741824 = 30 from rfl]

theorem roundTiesEven_big_plus : roundTiesEven ((8388608 : ℚ) + 1 / 128) = 8388608 := by
  have hfl : ⌊(8388608 + 1 / 128 : ℚ)⌋ = 8388608 := by norm_num
  simp only [roundTiesEven, hfl]
  norm_num

theorem roundTiesEven_int_small : roundTiesEven ((8388608 : ℚ)) = 8388608 := by
  have hfl : ⌊(8388608 : ℚ)⌋ = 8388608 := by norm_num
  simp only [roundTiesEven, hfl]
  norm_num

theorem roundTiesEven_int_big :
    roundTiesEven ((4503599631564800 : ℚ)) = 4503599631564800 := by
  have hfl : ⌊(4503599631564800 : ℚ)⌋ = 4503599631564800 := by norm_num
  simp only [roundTiesEven, hfl]
  norm_num

theorem fl32_eval_small : fl32 (1 / 2 ^ 30 : ℚ) = 1 / 2 ^ 30 := by
  have hx0 : (1 / 2 ^ 30 : ℚ) ≠ 0 := by norm_num
  have hxneg : ¬((1 / 2 ^ 30 : ℚ) < 0) := by norm_num
  simp only [fl32, roundPrec, if_neg hx0, if_neg hxneg, ratExp2_small]
  push_cast
  have harg : ((1 : ℚ) / 2 ^ 30) / (2 : ℚ) ^ (-53 : ℤ) = 8388608 := by norm_num
  rw [harg, roundTiesEven_int_small]
  norm_num

theorem fl32_eval_one_plus : fl32 (1 + 1 / 2 ^ 30 : ℚ) = 1 := by
  have hx0 : (1 + 1 / 2 ^ 30 : ℚ) ≠ 0 := by norm_num
  have hxneg : ¬((1 + 1 / 2 ^ 30 : ℚ) < 0) := by norm_num
  simp only [fl32, roundPrec, if_neg hx0, if_neg hxneg, ratExp2_one_plus]
  push_cast
  have harg : ((1 : ℚ) + 1 / 2 ^ 30) / (2 : ℚ) ^ (-23 : ℤ) = 8388608 + 1 / 128 := by
    norm_num
  rw [harg, roundTiesEven_big_plus]
  norm_num

theorem fl64_eval_one_plus : fl64 (1 + 1 / 2 ^ 30 : ℚ) = 1 + 1 / 2 ^ 30 := by
  have hx0 : (1 + 1 / 2 ^ 30 : ℚ) ≠ 0 := by norm_num
  have hxneg : ¬((1 + 1 / 2 ^ 30 : ℚ) < 0) := by norm_num
  simp only [fl64, roundPrec, if_neg hx0, if_neg hxneg, ratExp2_one_plus]
  push_cast
  have harg : ((1 : ℚ) + 1 / 2 ^ 30) / (2 : ℚ) ^ (-52 : ℤ) = 4503599631564800 := by
    norm_num
  rw [harg, roundTiesEven_int_big]
  norm_num

/-- C5, counterexample: the claim says accumulation into the Power
Spectrum Accumulator is performed in double precision. The accumulator
of calculate_integrated_power_spectrum.c is a `float *` (line 146) and
the `power_spectrum[i] += power` update (line 97) rounds to single
precision: accumulating the transform output `2^-15` (whose square
`2^-30` is below half an ulp of 1 in binary32) onto an accumulator
holding 1 leaves the accumulator at 1, while the double-precision
accumulation the spec describes yields `1 + 2^-30`. -/
theorem ips_accum_not_double :
    ipsAccumStep 1 (1 / 2 ^ 15) ≠ ipsAccumStepSpecDouble 1 (1 / 2 ^ 15) := by
  unfold ipsAccumStep ipsAccumStepSpecDouble
  rw [show ((1 : ℚ) / 2 ^ 15 * (1 / 2 ^ 15)) = 1 / 2 ^ 30 by norm_num,
    fl32_eval_small, fl32_eval_one_plus, fl64_eval_one_plus]
  norm_num

/-- C5, amended: per-block quantities are computed in single-precision
float, and accumulation into the per-bin accumulator of the integrated
power spectrum mode is also performed in single precision (a sub-ulp
increment is absorbed); double-precision accumulation appears only in
the per-block amplitude sums of the amplitude-sum mode, which retain
such an increment. -/
theorem accum_precision_per_mode :
    ipsAccumStep 1 (1 / 2 ^ 15) = 1
    ∧ ampSumAccumStep 1 (1 / 2 ^ 30) = 1 + 1 / 2 ^ 30 := by
  constructor
  · unfold ipsAccumStep
    rw [show ((1 : ℚ) / 2 ^ 15 * (1 / 2 ^ 15)) = 1 / 2 ^ 30 by norm_num,
      fl32_eval_small]
    exact fl32_eval_one_plus
  · unfold ampSumAccumStep
    exact fl64_eval_one_plus

/-- C6, counterexample: the claim says every mode rejects
`samples_per_block < 2` before any input I/O. calculate_power.c accepts
the value 1 outright (its only check is `samples_per_block == 0`, and it
runs after the input file is opened): the start-up trace for `n = 1`
contains no rejection before — or after — the open. -/
theorem power_mode_accepts_one :
    (1 : ℕ) < 2 ∧ rejectedBeforeOpen (powerEvents 1) = false
      ∧ (MEvent.rejectParam ∈ powerEvents 1 ↔ False) := by
  refine ⟨by decide, rfl, by decide⟩

/-- C6, amended: only the amplitude and spectrogram modes reject
`samples_per_block < 2` before any input I/O; the integrated power
spectrum mode rejects exactly the non-positive values before any input
I/O (accepting 1); the power mode rejects exactly 0, and only after the
input file has been opened; the amplitude-sum, power-spectrum and
rawreader modes perform no validation at all. -/
theorem param_validation_per_mode :
    (∀ n : ℕ, rejectedBeforeOpen (amplitudeEvents n) = decide (n < 2))
    ∧ (∀ n : ℕ, rejectedBeforeOpen (spectrogramEvents n) = decide (n < 2))
    ∧ (∀ n : ℕ, rejectedBeforeOpen (powerEvents n) = false)
    ∧ (∀ n : ℕ, MEvent.rejectParam ∈ powerEvents n ↔ n = 0)
    ∧ (∀ z : ℤ, rejectedBeforeOpen (ipsEvents z) = decide (z ≤ 0))
    ∧ (∀ z : ℤ, MEvent.rejectParam ∈ ampSumEvents z ↔ False)
    ∧ (∀ z : ℤ, MEvent.rejectParam ∈ powerSpectrumEvents z ↔ False)
    ∧ (∀ z : ℤ, MEvent.rejectParam ∈ rawreaderEvents z ↔ False) := by
  refine ⟨?_, ?_, ?_, ?_, ?_, ?_, ?_, ?_⟩
  · intro n
    by_cases h : n < 2 <;> simp [amplitudeEvents, rejectedBeforeOpen, h]
  · intro n
    by_cases h : n < 2 <;> simp [spectrogramEvents, rejectedBeforeOpen, h]
  · intro n
    rfl
  · intro n
    by_cases h : n = 0 <;> simp [powerEvents, h]
  · intro z
    by_cases h : z ≤ 0 <;> simp [ipsEvents, rejectedBeforeOpen, h]
  · intro z
    simp [ampSumEvents]
  · intro z
    simp [powerSpectrumEvents]
  · intro z
    simp [rawreaderEvents]

end OstRadioTools
